import Mathlib

/-!
Shallow embedding of `@maastrich/zod-resolve` (runtime part: `src/flatten.ts`,
`src/resolve.ts`).  Schema nodes are the six traversal-relevant kinds of the
library: objects, arrays, tuples, unions, transparent wrappers
(optional/nullable/default) and leaves (any non-composite zod schema; the
`tag` distinguishes distinct leaf schemas of the user's graph).
-/

namespace ZodResolve

inductive WrapperKind where
  | optional
  | nullable
  | dflt
deriving DecidableEq, Repr

inductive SchemaNode where
  | object (fields : List (String × SchemaNode))
  | array (element : SchemaNode)
  | tuple (items : List SchemaNode)
  | union (options : List SchemaNode)
  | wrapper (kind : WrapperKind) (inner : SchemaNode)
  | leaf (tag : String)

/-- A flattened map: path string to schema, in JS-object insertion order. -/
abbrev FlatMap := List (String × SchemaNode)

/-- JS `key in acc ? acc[key] : undefined`. -/
def lookupKey : FlatMap → String → Option SchemaNode
  | [], _ => none
  | (k', v') :: t, k => if k' = k then some v' else lookupKey t k

/-- JS `acc[key] = value`: updates in place when the key exists (keeping its
insertion position), appends otherwise. -/
def setKey : FlatMap → String → SchemaNode → FlatMap
  | [], k, v => [(k, v)]
  | (k', v') :: t, k, v => if k' = k then (k, v) :: t else (k', v') :: setKey t k v

/-- The value assigned for a key inside the reduce of `mergeSchemas`:
`current ? (current instanceof ZodUnion ? z.union([...current.options, value])
: z.union([current, value])) : value`.  The `instanceof ZodUnion` test becomes
a match on the `union` constructor (a wrapper around a union is a
`ZodOptional`/... instance, not a `ZodUnion`, so only a bare union splices). -/
def newVal : Option SchemaNode → SchemaNode → SchemaNode
  | none, value => value
  | some (.union options), value => .union (options ++ [value])
  | some current, value => .union [current, value]

/-- One step of the inner reduce of `mergeSchemas`: fold entry `kv` into `acc`. -/
def mergeEntry (acc : FlatMap) (kv : String × SchemaNode) : FlatMap :=
  setKey acc kv.1 (newVal (lookupKey acc kv.1) kv.2)

/-- The inner `Object.entries(schema).reduce` of `mergeSchemas`. -/
def mergeInto (acc : FlatMap) (m : FlatMap) : FlatMap :=
  m.foldl mergeEntry acc

/-- `mergeSchemas` from `src/flatten.ts`. -/
def mergeSchemas (schemas : List FlatMap) : FlatMap :=
  schemas.foldl mergeInto []

/-- `unwrapSchema` from `src/flatten.ts`: peel optional/default/nullable. -/
def unwrapSchema : SchemaNode → SchemaNode
  | .wrapper _ inner => unwrapSchema inner
  | s => s

/-- Path of an object field below a prefix: `prefix ? prefix + "." + key : key`. -/
def toKey (p key : String) : String :=
  if p = "" then key else p ++ "." ++ key

/-!
`flattenSchema` from `src/flatten.ts`.  The source first computes
`unwrapSchema(schema)` and then merges the results of the four kind-specific
flatteners (array, tuple, object, union), each of which returns `{}` when the
unwrapped node is not of its kind.  Here the unwrapping is fused into the
recursion (the wrapper case recurses on the inner node, which is exactly what
dispatching on the unwrapped node computes; `flattenSchema_unwrap` below
records the equivalence), and each non-wrapper case keeps the source's
four-element merge with the three non-matching flatteners contributing `[]`.
-/

mutual

def flattenSchema (s : SchemaNode) (p : String) : FlatMap :=
  match s with
  | .wrapper _ inner => flattenSchema inner p
  | .array element =>
    mergeSchemas [mergeSchemas [[(p ++ "[]", element)], flattenSchema element (p ++ "[]")],
      [], [], []]
  | .tuple items =>
    mergeSchemas [[], mergeSchemas (flattenTupleItems items p 0), [], []]
  | .object fields =>
    mergeSchemas [[], [], mergeSchemas (flattenObjectFields fields p), []]
  | .union options =>
    mergeSchemas [[], [], [], mergeSchemas (flattenUnionOptions options p)]
  | .leaf _ => mergeSchemas [[], [], [], []]

def flattenTupleItems (items : List SchemaNode) (p : String) (index : Nat) : List FlatMap :=
  match items with
  | [] => []
  | element :: rest =>
    mergeSchemas [[(p ++ "[" ++ toString index ++ "]", element)],
        flattenSchema element (p ++ "[" ++ toString index ++ "]")]
      :: flattenTupleItems rest p (index + 1)

def flattenObjectFields (fields : List (String × SchemaNode)) (p : String) : List FlatMap :=
  match fields with
  | [] => []
  | (key, value) :: rest =>
    mergeSchemas [[(toKey p key, value)], flattenSchema value (toKey p key)]
      :: flattenObjectFields rest p

def flattenUnionOptions (options : List SchemaNode) (p : String) : List FlatMap :=
  match options with
  | [] => []
  | option :: rest => flattenSchema option p :: flattenUnionOptions rest p

end

/-- `flatten` from `src/flatten.ts`. -/
def flatten (schema : SchemaNode) : FlatMap :=
  flattenSchema schema ""

/-- `resolve` from `src/resolve.ts`: `const flat = flatten(schema); return flat[key]`.
An absent key evaluates to JS `undefined`, modelled as `none` (the function
body contains no `throw`). -/
def resolve (schema : SchemaNode) (key : String) : Option SchemaNode :=
  let flat := flatten schema
  lookupKey flat key

/-- The path strings of a flattened map. -/
def keysOf (m : FlatMap) : List String := m.map Prod.fst

end ZodResolve

namespace ZodResolve

/-! ### Basic properties of the map operations -/

/-- Keys of a flattened map are pairwise distinct (JS object keys are unique). -/
abbrev uniqKeys (m : FlatMap) : Prop := (keysOf m).Nodup

/-- Whether a node is a bare union (`instanceof ZodUnion`). -/
def isUnion : SchemaNode → Bool
  | .union _ => true
  | _ => false

theorem keysOf_nil : keysOf [] = [] := rfl

theorem keysOf_cons (kv : String × SchemaNode) (m : FlatMap) :
    keysOf (kv :: m) = kv.1 :: keysOf m := rfl

theorem keysOf_append (a b : FlatMap) : keysOf (a ++ b) = keysOf a ++ keysOf b :=
  List.map_append _ a b

theorem lookupKey_eq_none_iff (m : FlatMap) (k : String) :
    lookupKey m k = none ↔ k ∉ keysOf m := by
  induction m with
  | nil => simp [lookupKey, keysOf]
  | cons kv t ih =>
    obtain ⟨k1, v1⟩ := kv
    by_cases h : k1 = k
    · subst h; simp [lookupKey, keysOf]
    · simp [lookupKey, keysOf, h, ih, Ne.symm h]

theorem keysOf_setKey (m : FlatMap) (k : String) (v : SchemaNode) :
    keysOf (setKey m k v) = if k ∈ keysOf m then keysOf m else keysOf m ++ [k] := by
  induction m with
  | nil => simp [setKey, keysOf]
  | cons kv t ih =>
    obtain ⟨k1, v1⟩ := kv
    by_cases h : k1 = k
    · subst h; simp [setKey, keysOf]
    · have hset : setKey ((k1, v1) :: t) k v = (k1, v1) :: setKey t k v := by
        simp [setKey, h]
      rw [hset, keysOf_cons, keysOf_cons, ih]
      by_cases ht : k ∈ keysOf t
      · simp [ht]
      · simp [ht, Ne.symm h]

theorem setKey_eq_append (m : FlatMap) (k : String) (v : SchemaNode)
    (h : k ∉ keysOf m) : setKey m k v = m ++ [(k, v)] := by
  induction m with
  | nil => simp [setKey]
  | cons kv t ih =>
    obtain ⟨k1, v1⟩ := kv
    simp only [keysOf, List.map_cons, List.mem_cons] at h
    push_neg at h
    simp [setKey, Ne.symm h.1, ih h.2]

theorem lookupKey_setKey_self (m : FlatMap) (k : String) (v : SchemaNode) :
    lookupKey (setKey m k v) k = some v := by
  induction m with
  | nil => simp [setKey, lookupKey]
  | cons kv t ih =>
    obtain ⟨k1, v1⟩ := kv
    by_cases h : k1 = k
    · subst h; simp [setKey, lookupKey]
    · simp [setKey, lookupKey, h, ih]

theorem lookupKey_setKey_ne (m : FlatMap) (k k2 : String) (v : SchemaNode)
    (h : k2 ≠ k) : lookupKey (setKey m k v) k2 = lookupKey m k2 := by
  induction m with
  | nil => simp [setKey, lookupKey, Ne.symm h]
  | cons kv t ih =>
    obtain ⟨k1, v1⟩ := kv
    by_cases h1 : k1 = k
    · subst h1; simp [setKey, lookupKey, Ne.symm h]
    · by_cases h2 : k1 = k2 <;> simp [setKey, lookupKey, h, h1, h2, ih]

theorem uniqKeys_setKey (m : FlatMap) (k : String) (v : SchemaNode)
    (h : uniqKeys m) : uniqKeys (setKey m k v) := by
  unfold uniqKeys at *
  rw [keysOf_setKey]
  by_cases hm : k ∈ keysOf m
  · simpa [hm] using h
  · simp only [hm, if_false]
    refine List.Nodup.append h (List.nodup_singleton k) ?_
    intro a ha hk2
    rw [List.mem_singleton] at hk2
    exact hm (hk2 ▸ ha)

/-! ### mergeEntry -/

theorem lookupKey_mergeEntry_self (acc : FlatMap) (kv : String × SchemaNode) :
    lookupKey (mergeEntry acc kv) kv.1 = some (newVal (lookupKey acc kv.1) kv.2) :=
  lookupKey_setKey_self _ _ _

theorem lookupKey_mergeEntry_ne (acc : FlatMap) (kv : String × SchemaNode) (k : String)
    (h : k ≠ kv.1) : lookupKey (mergeEntry acc kv) k = lookupKey acc k :=
  lookupKey_setKey_ne _ _ _ _ h

theorem uniqKeys_mergeEntry (acc : FlatMap) (kv : String × SchemaNode)
    (h : uniqKeys acc) : uniqKeys (mergeEntry acc kv) :=
  uniqKeys_setKey _ _ _ h

theorem mem_keysOf_mergeEntry (acc : FlatMap) (kv : String × SchemaNode) (k : String) :
    k ∈ keysOf (mergeEntry acc kv) ↔ k ∈ keysOf acc ∨ k = kv.1 := by
  unfold mergeEntry
  rw [keysOf_setKey]
  by_cases hm : kv.1 ∈ keysOf acc
  · simp only [hm, if_true]
    constructor
    · exact Or.inl
    · rintro (h | rfl) <;> [exact h; exact hm]
  · simp [hm]

theorem mergeEntry_not_mem (acc : FlatMap) (kv : String × SchemaNode)
    (h : kv.1 ∉ keysOf acc) : mergeEntry acc kv = acc ++ [kv] := by
  unfold mergeEntry
  rw [(lookupKey_eq_none_iff acc kv.1).mpr h]
  show setKey acc kv.1 kv.2 = acc ++ [kv]
  rw [setKey_eq_append acc kv.1 kv.2 h]

/-! ### mergeInto -/

theorem mergeInto_nil (acc : FlatMap) : mergeInto acc [] = acc := rfl

theorem mergeInto_cons (acc : FlatMap) (kv : String × SchemaNode) (m : FlatMap) :
    mergeInto acc (kv :: m) = mergeInto (mergeEntry acc kv) m := rfl

theorem uniqKeys_mergeInto (m : FlatMap) : ∀ (acc : FlatMap),
    uniqKeys acc → uniqKeys (mergeInto acc m) := by
  induction m with
  | nil => intro acc h; exact h
  | cons kv t ih =>
    intro acc h
    rw [mergeInto_cons]
    exact ih _ (uniqKeys_mergeEntry _ _ h)

theorem mem_keysOf_mergeInto (m : FlatMap) : ∀ (acc : FlatMap) (k : String),
    k ∈ keysOf (mergeInto acc m) → k ∈ keysOf acc ∨ k ∈ keysOf m := by
  induction m with
  | nil => intro acc k h; exact Or.inl h
  | cons kv t ih =>
    intro acc k h
    rw [mergeInto_cons] at h
    rcases ih _ _ h with h1 | h1
    · rcases (mem_keysOf_mergeEntry acc kv k).mp h1 with h2 | h2
      · exact Or.inl h2
      · exact Or.inr (by simp [keysOf_cons, h2])
    · exact Or.inr (by simp [keysOf_cons, h1])

theorem lookupKey_mergeInto_not_mem (m : FlatMap) : ∀ (acc : FlatMap) (k : String),
    k ∉ keysOf m → lookupKey (mergeInto acc m) k = lookupKey acc k := by
  induction m with
  | nil => intro acc k _; rfl
  | cons kv t ih =>
    intro acc k h
    simp only [keysOf_cons, List.mem_cons] at h
    push_neg at h
    rw [mergeInto_cons, ih _ _ h.2, lookupKey_mergeEntry_ne _ _ _ h.1]

theorem lookupKey_mergeInto_some (m : FlatMap) : ∀ (acc : FlatMap) (k : String)
    (v : SchemaNode), uniqKeys m → lookupKey m k = some v →
    lookupKey (mergeInto acc m) k = some (newVal (lookupKey acc k) v) := by
  induction m with
  | nil => intro acc k v _ h; simp [lookupKey] at h
  | cons kv t ih =>
    intro acc k v hu h
    obtain ⟨k1, v1⟩ := kv
    have hu1 : k1 ∉ keysOf t := by
      have := hu
      unfold uniqKeys at this
      simp [keysOf_cons] at this
      exact this.1
    have hu2 : uniqKeys t := by
      have := hu
      unfold uniqKeys at this
      simp [keysOf_cons] at this
      exact this.2
    by_cases hk : k1 = k
    · subst hk
      have hv1 : v1 = v := by simpa [lookupKey] using h
      subst hv1
      rw [mergeInto_cons, lookupKey_mergeInto_not_mem t _ _ hu1]
      exact lookupKey_mergeEntry_self acc (k1, v1)
    · simp only [lookupKey, if_neg hk] at h
      rw [mergeInto_cons, ih _ _ _ hu2 h,
        lookupKey_mergeEntry_ne _ _ _ (Ne.symm hk)]

theorem mergeInto_disjoint (m : FlatMap) : ∀ (acc : FlatMap), uniqKeys m →
    (∀ k ∈ keysOf m, k ∉ keysOf acc) → mergeInto acc m = acc ++ m := by
  induction m with
  | nil => intro acc _ _; simp [mergeInto_nil]
  | cons kv t ih =>
    intro acc hu hd
    have hu1 : kv.1 ∉ keysOf t := by
      have := hu; unfold uniqKeys at this
      simp [keysOf_cons] at this; exact this.1
    have hu2 : uniqKeys t := by
      have := hu; unfold uniqKeys at this
      simp [keysOf_cons] at this; exact this.2
    rw [mergeInto_cons,
      mergeEntry_not_mem acc kv (hd kv.1 (by simp [keysOf_cons]))]
    rw [ih (acc ++ [kv]) hu2 ?_]
    · simp
    · intro k hk
      rw [keysOf_append]
      simp only [List.mem_append]
      push_neg
      refine ⟨hd k (by simp [keysOf_cons, hk]), ?_⟩
      simp only [keysOf_cons, keysOf_nil, List.mem_singleton]
      intro hEq
      exact hu1 (hEq ▸ hk)

theorem mergeInto_nil_left (m : FlatMap) (hu : uniqKeys m) : mergeInto [] m = m := by
  simpa using mergeInto_disjoint m [] hu (by simp [keysOf_nil])

/-! ### mergeSchemas -/

theorem mergeSchemas_nil : mergeSchemas [] = [] := rfl

theorem uniqKeys_foldl_mergeInto (maps : List FlatMap) : ∀ (acc : FlatMap),
    uniqKeys acc → uniqKeys (maps.foldl mergeInto acc) := by
  induction maps with
  | nil => intro acc h; exact h
  | cons m ms ih => intro acc h; exact ih _ (uniqKeys_mergeInto m acc h)

theorem uniqKeys_mergeSchemas (maps : List FlatMap) : uniqKeys (mergeSchemas maps) :=
  uniqKeys_foldl_mergeInto maps [] (by simp [uniqKeys, keysOf_nil])

theorem mem_keysOf_foldl_mergeInto (maps : List FlatMap) : ∀ (acc : FlatMap) (k : String),
    k ∈ keysOf (maps.foldl mergeInto acc) → k ∈ keysOf acc ∨ ∃ m ∈ maps, k ∈ keysOf m := by
  induction maps with
  | nil => intro acc k h; exact Or.inl h
  | cons m ms ih =>
    intro acc k h
    rcases ih _ _ h with h1 | ⟨m1, hm1, hk1⟩
    · rcases mem_keysOf_mergeInto m acc k h1 with h2 | h2
      · exact Or.inl h2
      · exact Or.inr ⟨m, by simp, h2⟩
    · exact Or.inr ⟨m1, by simp [hm1], hk1⟩

theorem mem_keysOf_mergeSchemas (maps : List FlatMap) (k : String)
    (h : k ∈ keysOf (mergeSchemas maps)) : ∃ m ∈ maps, k ∈ keysOf m := by
  rcases mem_keysOf_foldl_mergeInto maps [] k h with h1 | h1
  · simp [keysOf_nil] at h1
  · exact h1

/-! ### Lookup through mergeSchemas -/

/-- The values contributed for key `k` by each branch map, in branch order. -/
def branchVals (k : String) (maps : List FlatMap) : List SchemaNode :=
  maps.filterMap (fun m => lookupKey m k)

/-- The value accumulated for one key as `mergeSchemas` folds the branch
values in, starting from `cur`. -/
def foldVals : Option SchemaNode → List SchemaNode → Option SchemaNode
  | cur, [] => cur
  | cur, v :: vs => foldVals (some (newVal cur v)) vs

theorem branchVals_nil (k : String) : branchVals k [] = [] := rfl

theorem branchVals_cons (k : String) (m : FlatMap) (ms : List FlatMap) :
    branchVals k (m :: ms)
      = match lookupKey m k with
        | none => branchVals k ms
        | some v => v :: branchVals k ms := by
  cases h : lookupKey m k <;> simp [branchVals, List.filterMap_cons, h]

theorem lookupKey_foldl_mergeInto (maps : List FlatMap) : ∀ (acc : FlatMap) (k : String),
    (∀ m ∈ maps, uniqKeys m) →
    lookupKey (maps.foldl mergeInto acc) k = foldVals (lookupKey acc k) (branchVals k maps) := by
  induction maps with
  | nil => intro acc k _; rfl
  | cons m ms ih =>
    intro acc k hu
    have hmu : uniqKeys m := hu m (by simp)
    have hmsu : ∀ m1 ∈ ms, uniqKeys m1 := fun m1 h1 => hu m1 (by simp [h1])
    rw [List.foldl_cons, ih _ k hmsu, branchVals_cons]
    cases h : lookupKey m k with
    | none =>
      rw [lookupKey_mergeInto_not_mem m acc k ((lookupKey_eq_none_iff m k).mp h)]
    | some v =>
      rw [lookupKey_mergeInto_some m acc k v hmu h]
      rfl

theorem lookupKey_mergeSchemas (maps : List FlatMap) (k : String)
    (hu : ∀ m ∈ maps, uniqKeys m) :
    lookupKey (mergeSchemas maps) k = foldVals none (branchVals k maps) := by
  have := lookupKey_foldl_mergeInto maps [] k hu
  simpa [mergeSchemas, lookupKey] using this

theorem newVal_union (options : List SchemaNode) (value : SchemaNode) :
    newVal (some (.union options)) value = .union (options ++ [value]) := rfl

theorem newVal_not_union (current value : SchemaNode) (h : isUnion current = false) :
    newVal (some current) value = .union [current, value] := by
  cases current <;> first | rfl | simp [isUnion] at h

theorem foldVals_some_union (vs : List SchemaNode) : ∀ (options : List SchemaNode),
    foldVals (some (.union options)) vs = some (.union (options ++ vs)) := by
  induction vs with
  | nil => intro options; simp [foldVals]
  | cons v vs ih =>
    intro options
    rw [foldVals, newVal_union, ih]
    simp

theorem foldVals_first_not_union (v : SchemaNode) (vs : List SchemaNode)
    (h : isUnion v = false) (hne : vs ≠ []) :
    foldVals none (v :: vs) = some (.union (v :: vs)) := by
  cases vs with
  | nil => exact absurd rfl hne
  | cons w ws =>
    show foldVals (some (newVal none v)) (w :: ws) = _
    show foldVals (some (newVal (some (newVal none v)) w)) ws = _
    have h1 : newVal none v = v := rfl
    rw [h1, newVal_not_union v w h, foldVals_some_union]
    simp

theorem foldVals_first_union (options : List SchemaNode) (vs : List SchemaNode) :
    foldVals none (.union options :: vs) = some (.union (options ++ vs)) := by
  show foldVals (some (newVal none (.union options))) vs = _
  have h1 : newVal none (.union options) = .union options := rfl
  rw [h1, foldVals_some_union]

/-! ### Structure of flattenSchema -/

theorem flattenSchema_wrapper (kd : WrapperKind) (inner : SchemaNode) (p : String) :
    flattenSchema (.wrapper kd inner) p = flattenSchema inner p := rfl

theorem flattenSchema_leaf (t : String) (p : String) :
    flattenSchema (.leaf t) p = [] := rfl

theorem flattenSchema_array (element : SchemaNode) (p : String) :
    flattenSchema (.array element) p
      = mergeInto [] (mergeInto [(p ++ "[]", element)] (flattenSchema element (p ++ "[]"))) := rfl

theorem flattenSchema_tuple (items : List SchemaNode) (p : String) :
    flattenSchema (.tuple items) p
      = mergeInto [] (mergeSchemas (flattenTupleItems items p 0)) := rfl

theorem flattenSchema_object (fields : List (String × SchemaNode)) (p : String) :
    flattenSchema (.object fields) p
      = mergeInto [] (mergeSchemas (flattenObjectFields fields p)) := rfl

theorem flattenSchema_union (options : List SchemaNode) (p : String) :
    flattenSchema (.union options) p
      = mergeInto [] (mergeSchemas (flattenUnionOptions options p)) := rfl

theorem flattenObjectFields_eq_map : ∀ (fields : List (String × SchemaNode)) (p : String),
    flattenObjectFields fields p = fields.map fun fv =>
      mergeSchemas [[(toKey p fv.1, fv.2)], flattenSchema fv.2 (toKey p fv.1)]
  | [], _ => rfl
  | (k1, v1) :: t, p => by
    rw [List.map_cons, ← flattenObjectFields_eq_map t p]
    rfl

theorem flattenUnionOptions_eq_map : ∀ (options : List SchemaNode) (p : String),
    flattenUnionOptions options p = options.map fun o => flattenSchema o p
  | [], _ => rfl
  | o :: t, p => by
    rw [List.map_cons, ← flattenUnionOptions_eq_map t p]
    rfl

theorem mem_flattenTupleItems : ∀ (items : List SchemaNode) (p : String) (i : Nat)
    (aMap : FlatMap), aMap ∈ flattenTupleItems items p i →
    ∃ (el : SchemaNode) (j : Nat), el ∈ items ∧ aMap = mergeSchemas
      [[(p ++ "[" ++ toString j ++ "]", el)],
        flattenSchema el (p ++ "[" ++ toString j ++ "]")] := by
  intro items
  induction items with
  | nil => intro p i aMap h; simp [flattenTupleItems] at h
  | cons el rest ih =>
    intro p i aMap h
    rw [show flattenTupleItems (el :: rest) p i
        = mergeSchemas [[(p ++ "[" ++ toString i ++ "]", el)],
            flattenSchema el (p ++ "[" ++ toString i ++ "]")]
          :: flattenTupleItems rest p (i + 1) from rfl] at h
    rcases List.mem_cons.mp h with h1 | h1
    · exact ⟨el, i, by simp, h1⟩
    · obtain ⟨el2, j, hel2, heq⟩ := ih p (i + 1) aMap h1
      exact ⟨el2, j, by simp [hel2], heq⟩

theorem uniqKeys_nil : uniqKeys ([] : FlatMap) := by simp [uniqKeys, keysOf_nil]

theorem uniqKeys_flattenSchema : ∀ (s : SchemaNode) (p : String),
    uniqKeys (flattenSchema s p)
  | .wrapper _ inner, p => uniqKeys_flattenSchema inner p
  | .object _, p => by
    rw [flattenSchema_object]; exact uniqKeys_mergeInto _ _ uniqKeys_nil
  | .array _, p => by
    rw [flattenSchema_array]; exact uniqKeys_mergeInto _ _ uniqKeys_nil
  | .tuple _, p => by
    rw [flattenSchema_tuple]; exact uniqKeys_mergeInto _ _ uniqKeys_nil
  | .union _, p => by
    rw [flattenSchema_union]; exact uniqKeys_mergeInto _ _ uniqKeys_nil
  | .leaf _, p => by rw [flattenSchema_leaf]; exact uniqKeys_nil

/-- The runtime dispatch on the unwrapped node: flattening a node equals
flattening its unwrapped form (the wrapper is transparent for traversal). -/
theorem flattenSchema_unwrap : ∀ (s : SchemaNode) (p : String),
    flattenSchema s p = flattenSchema (unwrapSchema s) p
  | .wrapper kd inner, p => by
    rw [flattenSchema_wrapper, flattenSchema_unwrap inner p]; rfl
  | .object _, _ => rfl
  | .array _, _ => rfl
  | .tuple _, _ => rfl
  | .union _, _ => rfl
  | .leaf _, _ => rfl

/-! ### Every key produced below a nonempty prefix strictly extends it -/

theorem ne_empty_of_length_pos {s : String} (h : 0 < s.length) : s ≠ "" := by
  intro hEq
  rw [hEq] at h
  simp at h

theorem length_toKey (p key : String) (hp : p ≠ "") :
    (toKey p key).length = p.length + 1 + key.length := by
  rw [toKey, if_neg hp, String.length_append, String.length_append]
  have h1 : ("." : String).length = 1 := by decide
  omega

theorem sizeOf_snd_lt_of_mem {fields : List (String × SchemaNode)}
    {fv : String × SchemaNode} (h : fv ∈ fields) : sizeOf fv.2 < sizeOf fields := by
  induction fields with
  | nil => simp at h
  | cons hd t ih =>
    rcases List.mem_cons.mp h with h1 | h1
    · subst h1
      obtain ⟨a, b⟩ := fv
      simp
      omega
    · have := ih h1
      simp
      omega

theorem sizeOf_lt_of_mem_items {items : List SchemaNode} {el : SchemaNode}
    (h : el ∈ items) : sizeOf el < sizeOf items := by
  induction items with
  | nil => simp at h
  | cons hd t ih =>
    rcases List.mem_cons.mp h with h1 | h1
    · subst h1
      simp
      omega
    · have := ih h1
      simp
      omega

theorem flattenSchema_key_length_aux : ∀ (n : Nat) (s : SchemaNode), sizeOf s ≤ n →
    ∀ (p : String), p ≠ "" → ∀ k ∈ keysOf (flattenSchema s p), p.length < k.length := by
  intro n
  induction n with
  | zero =>
    intro s hs
    exfalso
    cases s <;> simp at hs
  | succ n ih =>
    intro s hs p hp k hk
    have hbr : ("[" : String).length = 1 := by decide
    have hbl : ("]" : String).length = 1 := by decide
    have hsq : ("[]" : String).length = 2 := by decide
    cases s with
    | wrapper kd inner =>
      have hsz : sizeOf inner ≤ n := by simp at hs; omega
      exact ih inner hsz p hp k (by rwa [flattenSchema_wrapper] at hk)
    | leaf t =>
      rw [flattenSchema_leaf] at hk
      simp [keysOf_nil] at hk
    | array element =>
      rw [flattenSchema_array] at hk
      rcases mem_keysOf_mergeInto _ [] k hk with h1 | h1
      · simp [keysOf_nil] at h1
      rcases mem_keysOf_mergeInto _ _ k h1 with h2 | h2
      · simp [keysOf_cons, keysOf_nil] at h2
        subst h2
        rw [String.length_append]
        omega
      · have hnp : (p ++ "[]") ≠ "" :=
          ne_empty_of_length_pos (by rw [String.length_append]; omega)
        have hsz : sizeOf element ≤ n := by simp at hs; omega
        have hlen := ih element hsz (p ++ "[]") hnp k h2
        rw [String.length_append] at hlen
        omega
    | tuple items =>
      rw [flattenSchema_tuple] at hk
      rcases mem_keysOf_mergeInto _ [] k hk with h1 | h1
      · simp [keysOf_nil] at h1
      obtain ⟨m, hm, hkm⟩ := mem_keysOf_mergeSchemas _ k h1
      obtain ⟨el, j, hel, rfl⟩ := mem_flattenTupleItems items p 0 m hm
      obtain ⟨m2, hm2, hkm2⟩ := mem_keysOf_mergeSchemas _ k hkm
      have hnpl : (p ++ "[" ++ toString j ++ "]").length
          = p.length + (toString j).length + 2 := by
        rw [String.length_append, String.length_append, String.length_append]
        omega
      simp only [List.mem_cons, List.not_mem_nil, or_false] at hm2
      rcases hm2 with h2 | h2
      · subst h2
        simp [keysOf_cons, keysOf_nil] at hkm2
        subst hkm2
        omega
      · subst h2
        have hnp : (p ++ "[" ++ toString j ++ "]") ≠ "" :=
          ne_empty_of_length_pos (by omega)
        have hsz : sizeOf el ≤ n := by
          have := sizeOf_lt_of_mem_items hel
          simp at hs
          omega
        have hlen := ih el hsz _ hnp k hkm2
        omega
    | object fields =>
      rw [flattenSchema_object] at hk
      rcases mem_keysOf_mergeInto _ [] k hk with h1 | h1
      · simp [keysOf_nil] at h1
      obtain ⟨m, hm, hkm⟩ := mem_keysOf_mergeSchemas _ k h1
      rw [flattenObjectFields_eq_map] at hm
      obtain ⟨fv, hfv, rfl⟩ := List.mem_map.mp hm
      obtain ⟨m2, hm2, hkm2⟩ := mem_keysOf_mergeSchemas _ k hkm
      have htk := length_toKey p fv.1 hp
      simp only [List.mem_cons, List.not_mem_nil, or_false] at hm2
      rcases hm2 with h2 | h2
      · subst h2
        simp [keysOf_cons, keysOf_nil] at hkm2
        subst hkm2
        omega
      · subst h2
        have hnk : toKey p fv.1 ≠ "" := ne_empty_of_length_pos (by omega)
        have hsz : sizeOf fv.2 ≤ n := by
          have := sizeOf_snd_lt_of_mem hfv
          simp at hs
          omega
        have hlen := ih fv.2 hsz _ hnk k hkm2
        omega
    | union options =>
      rw [flattenSchema_union] at hk
      rcases mem_keysOf_mergeInto _ [] k hk with h1 | h1
      · simp [keysOf_nil] at h1
      obtain ⟨m, hm, hkm⟩ := mem_keysOf_mergeSchemas _ k h1
      rw [flattenUnionOptions_eq_map] at hm
      obtain ⟨o, ho, rfl⟩ := List.mem_map.mp hm
      have hsz : sizeOf o ≤ n := by
        have := sizeOf_lt_of_mem_items ho
        simp at hs
        omega
      exact ih o hsz p hp k hkm

theorem flattenSchema_key_length (s : SchemaNode) (p : String) (hp : p ≠ "") :
    ∀ k ∈ keysOf (flattenSchema s p), p.length < k.length :=
  flattenSchema_key_length_aux (sizeOf s) s le_rfl p hp

theorem not_mem_keysOf_flattenSchema_self (s : SchemaNode) (p : String) (hp : p ≠ "") :
    p ∉ keysOf (flattenSchema s p) := by
  intro h
  have := flattenSchema_key_length s p hp p h
  omega

/-! ### Merging pairwise-disjoint maps is concatenation -/

theorem mergeSchemas_eq_foldl (maps : List FlatMap) :
    mergeSchemas maps = maps.foldl mergeInto [] := rfl

theorem foldl_mergeInto_of_disjoint : ∀ (maps : List FlatMap) (acc : FlatMap),
    (∀ m ∈ maps, uniqKeys m) →
    maps.Pairwise (fun a b => ∀ k ∈ keysOf a, k ∉ keysOf b) →
    (∀ m ∈ maps, ∀ k ∈ keysOf m, k ∉ keysOf acc) →
    maps.foldl mergeInto acc = acc ++ maps.flatten := by
  intro maps
  induction maps with
  | nil => intro acc _ _ _; simp
  | cons m ms ih =>
    intro acc hu hp hd
    obtain ⟨hpm, hpms⟩ := List.pairwise_cons.mp hp
    rw [List.foldl_cons, mergeInto_disjoint m acc (hu m (by simp)) (hd m (by simp)),
      ih (acc ++ m) (fun m1 h1 => hu m1 (by simp [h1])) hpms ?_]
    · simp
    · intro m1 h1 k hk
      rw [keysOf_append, List.mem_append]
      push_neg
      refine ⟨hd m1 (by simp [h1]) k hk, fun hkm => hpm m1 h1 k hkm hk⟩

theorem mem_keysOf_flatten_list : ∀ (maps : List FlatMap) (k : String),
    k ∈ keysOf maps.flatten → ∃ m ∈ maps, k ∈ keysOf m := by
  intro maps
  induction maps with
  | nil => intro k h; simp [keysOf_nil] at h
  | cons m ms ih =>
    intro k h
    rw [List.flatten_cons, keysOf_append, List.mem_append] at h
    rcases h with h | h
    · exact ⟨m, by simp, h⟩
    · obtain ⟨m1, h1, h2⟩ := ih k h
      exact ⟨m1, by simp [h1], h2⟩

theorem uniqKeys_flatten_list : ∀ (maps : List FlatMap),
    (∀ m ∈ maps, uniqKeys m) →
    maps.Pairwise (fun a b => ∀ k ∈ keysOf a, k ∉ keysOf b) →
    uniqKeys maps.flatten := by
  intro maps
  induction maps with
  | nil => intro _ _; exact uniqKeys_nil
  | cons m ms ih =>
    intro hu hp
    obtain ⟨hpm, hpms⟩ := List.pairwise_cons.mp hp
    rw [List.flatten_cons]
    unfold uniqKeys
    rw [keysOf_append, List.nodup_append]
    refine ⟨hu m (by simp), ih (fun m1 h1 => hu m1 (by simp [h1])) hpms, ?_⟩
    intro k hk hkj
    obtain ⟨m1, hm1, hk1⟩ := mem_keysOf_flatten_list ms k hkj
    exact hpm m1 hm1 k hk hk1

/-! ### Claim theorems -/

/-- An example root schema used for the C1 witness and counterexample. -/
def sampleUser : SchemaNode :=
  .object [("name", .leaf "string-name"), ("age", .leaf "number-age")]

/-- C1 (corrected): for every root schema and every path absent from the keys
of the flattened map, `resolve` returns JS `undefined` (modelled `none`) — the
function body of `resolve` in `src/resolve.ts` is `return flat[key]` with no
`throw`, so no PathNotFound error is raised; absence of the path is a normal
return. -/
theorem resolve_absent_path_none (schema : SchemaNode) (path : String)
    (h : path ∉ keysOf (flatten schema)) : resolve schema path = none :=
  (lookupKey_eq_none_iff (flatten schema) path).mpr h

/-- Witness for `resolve_absent_path_none` at a concrete schema and path. -/
theorem resolve_absent_path_none_witness :
    "email" ∉ keysOf (flatten sampleUser) ∧ resolve sampleUser "email" = none :=
  ⟨by decide, resolve_absent_path_none sampleUser "email" (by decide)⟩

/-- C1 counterexample to the claim as stated: the claim says a call with an
absent path raises a PathNotFound error rather than returning a value.  The
code returns the value `undefined` (`none`): evaluating `resolve` at an absent
path produces a normal return, and the source of `resolve` contains no error
channel at all. -/
theorem resolve_absent_path_cex :
    resolve sampleUser "email" = none ∧ "email" ∉ keysOf (flatten sampleUser) :=
  ⟨rfl, by decide⟩

/-- Maps used for the C3 witness: three branches all defining key `x`. -/
def dupMaps : List FlatMap :=
  [[("x", .leaf "a")], [("x", .leaf "b")], [("x", .leaf "c")]]

/-- C3 (corrected): over branch maps with unique keys, a duplicated key folds
to a synthetic union of the branch values in branch order, provided the first
branch value is not itself a union; when the first (accumulated) value is a
union, its options are spliced flat and later values appended.  A later branch
value that is itself a union is appended as a single nested branch (see the
counterexample), so only the accumulated side is ever spliced. -/
theorem mergeSchemas_duplicate_key (maps : List FlatMap) (k : String)
    (hu : ∀ m ∈ maps, uniqKeys m) :
    (∀ (v : SchemaNode) (vs : List SchemaNode), branchVals k maps = v :: vs →
      vs ≠ [] → isUnion v = false →
      lookupKey (mergeSchemas maps) k = some (.union (v :: vs))) ∧
    (∀ (options vs : List SchemaNode), branchVals k maps = .union options :: vs →
      lookupKey (mergeSchemas maps) k = some (.union (options ++ vs))) := by
  constructor
  · intro v vs hbv hne hnu
    rw [lookupKey_mergeSchemas maps k hu, hbv, foldVals_first_not_union v vs hnu hne]
  · intro options vs hbv
    rw [lookupKey_mergeSchemas maps k hu, hbv, foldVals_first_union]

/-- Witness for `mergeSchemas_duplicate_key`: three branches sharing `x` with
non-union values merge to the synthetic union `[a, b, c]` in branch order. -/
theorem mergeSchemas_duplicate_key_witness :
    (∀ m ∈ dupMaps, uniqKeys m) ∧
    lookupKey (mergeSchemas dupMaps) "x" = some (.union [.leaf "a", .leaf "b", .leaf "c"]) := by
  have H := mergeSchemas_duplicate_key dupMaps "x" (by decide)
  exact ⟨by decide, H.1 (.leaf "a") [.leaf "b", .leaf "c"] rfl (by simp) rfl⟩

/-- Whether some immediate branch of a union is itself a union. -/
def hasUnionBranch : SchemaNode → Bool
  | .union options => options.any isUnion
  | _ => false

/-- C3 counterexample to the claim as stated.  First: folding in a later
branch whose value is itself a union nests it whole, producing a
union-of-unions (the claim says this never happens).  Second: when the first
branch value is a union it is spliced, so the resulting branches are not the
two branch-specific schemas. -/
theorem mergeSchemas_duplicate_key_cex :
    (lookupKey (mergeSchemas [[("x", .leaf "a")], [("x", .union [.leaf "b", .leaf "c"])]]) "x"
        = some (.union [.leaf "a", .union [.leaf "b", .leaf "c"]])
      ∧ hasUnionBranch (.union [.leaf "a", .union [.leaf "b", .leaf "c"]]) = true)
    ∧ (lookupKey (mergeSchemas [[("x", .union [.leaf "b", .leaf "c"])], [("x", .leaf "a")]]) "x"
        = some (.union [.leaf "b", .leaf "c", .leaf "a"])
      ∧ (SchemaNode.union [.leaf "b", .leaf "c", .leaf "a"]
          ≠ .union [.union [.leaf "b", .leaf "c"], .leaf "a"])) :=
  ⟨⟨rfl, rfl⟩, rfl, by simp⟩

/-- C4 (confirmed): merging is associative in the specified sense —
`merge [A, B, C] = merge [merge [A, B], C]` — and for a key whose first branch
value is not a union, both call shapes produce the same synthetic union
listing the branch values in original branch order (not merge-call order). -/
theorem mergeSchemas_assoc_branch_order (A B C : FlatMap)
    (hA : uniqKeys A) (hB : uniqKeys B) (hC : uniqKeys C) :
    mergeSchemas [A, B, C] = mergeSchemas [mergeSchemas [A, B], C] ∧
    (∀ (k : String) (v : SchemaNode) (vs : List SchemaNode),
      branchVals k [A, B, C] = v :: vs → vs ≠ [] → isUnion v = false →
      lookupKey (mergeSchemas [A, B, C]) k = some (.union (v :: vs)) ∧
      lookupKey (mergeSchemas [mergeSchemas [A, B], C]) k = some (.union (v :: vs))) := by
  have hassoc : mergeSchemas [A, B, C] = mergeSchemas [mergeSchemas [A, B], C] := by
    have hM : uniqKeys (mergeSchemas [A, B]) := uniqKeys_mergeSchemas _
    show mergeInto (mergeInto (mergeInto [] A) B) C
      = mergeInto (mergeInto [] (mergeSchemas [A, B])) C
    rw [mergeInto_nil_left _ hM]
    rfl
  refine ⟨hassoc, fun k v vs hbv hne hnu => ?_⟩
  have hu : ∀ m ∈ [A, B, C], uniqKeys m := by
    intro m hm
    simp only [List.mem_cons, List.not_mem_nil, or_false] at hm
    rcases hm with rfl | rfl | rfl
    · exact hA
    · exact hB
    · exact hC
  have h1 : lookupKey (mergeSchemas [A, B, C]) k = some (.union (v :: vs)) := by
    rw [lookupKey_mergeSchemas _ k hu, hbv, foldVals_first_not_union v vs hnu hne]
  exact ⟨h1, hassoc ▸ h1⟩

def mapA : FlatMap := [("x", .leaf "A"), ("onlyA", .leaf "A2")]

def mapB : FlatMap := [("x", .leaf "B")]

def mapC : FlatMap := [("x", .leaf "C")]

/-- Witness for `mergeSchemas_assoc_branch_order` at concrete maps sharing
key `x`. -/
theorem mergeSchemas_assoc_branch_order_witness :
    uniqKeys mapA ∧ uniqKeys mapB ∧ uniqKeys mapC ∧
    mergeSchemas [mapA, mapB, mapC] = mergeSchemas [mergeSchemas [mapA, mapB], mapC] ∧
    lookupKey (mergeSchemas [mapA, mapB, mapC]) "x"
      = some (.union [.leaf "A", .leaf "B", .leaf "C"]) ∧
    lookupKey (mergeSchemas [mergeSchemas [mapA, mapB], mapC]) "x"
      = some (.union [.leaf "A", .leaf "B", .leaf "C"]) := by
  have H := mergeSchemas_assoc_branch_order mapA mapB mapC (by decide) (by decide) (by decide)
  have H2 := H.2 "x" (.leaf "A") [.leaf "B", .leaf "C"] rfl (by simp) rfl
  exact ⟨by decide, by decide, by decide, H.1, H2.1, H2.2⟩

/-- C6 (confirmed): wrappers are transparent for traversal — flattening a
wrapped node below any prefix equals flattening its unwrapped form — and for
a parent object assigning the wrapped node path `f`, the only entry that
differs between wrapped and unwrapped flattening is the one at `f` itself,
which stores the wrapped (outermost) node. -/
theorem flatten_wrapper_transparency (w : SchemaNode) (p f : String) (hf : f ≠ "") :
    flattenSchema w p = flattenSchema (unwrapSchema w) p ∧
    flatten (.object [(f, w)]) = (f, w) :: flattenSchema (unwrapSchema w) f ∧
    flatten (.object [(f, unwrapSchema w)])
      = (f, unwrapSchema w) :: flattenSchema (unwrapSchema w) f := by
  have key : ∀ (v : SchemaNode),
      flatten (.object [(f, v)]) = (f, v) :: flattenSchema v f := by
    intro v
    have htk : toKey "" f = f := by rw [toKey, if_pos rfl]
    have hF : uniqKeys (flattenSchema v f) := uniqKeys_flattenSchema v f
    have hmem : f ∉ keysOf (flattenSchema v f) :=
      not_mem_keysOf_flattenSchema_self v f hf
    have hMf : mergeInto [(f, v)] (flattenSchema v f) = (f, v) :: flattenSchema v f := by
      rw [mergeInto_disjoint _ _ hF ?_]
      · rfl
      · intro k hk
        simp only [keysOf_cons, keysOf_nil, List.mem_singleton]
        intro hEq
        exact hmem (hEq ▸ hk)
    have hcons : uniqKeys ((f, v) :: flattenSchema v f) := by
      unfold uniqKeys
      rw [keysOf_cons]
      exact List.nodup_cons.mpr ⟨hmem, hF⟩
    have hfields : flattenObjectFields [(f, v)] ""
        = [mergeSchemas [[(f, v)], flattenSchema v f]] := by
      rw [flattenObjectFields_eq_map]
      simp [htk]
    show mergeInto [] (mergeSchemas (flattenObjectFields [(f, v)] ""))
      = (f, v) :: flattenSchema v f
    rw [hfields]
    show mergeInto [] (mergeInto [] (mergeInto [(f, v)] (flattenSchema v f))) = _
    rw [hMf, mergeInto_nil_left _ hcons, mergeInto_nil_left _ hcons]
  exact ⟨flattenSchema_unwrap w p,
    by rw [key w, flattenSchema_unwrap w f],
    key (unwrapSchema w)⟩

/-- A doubly wrapped object schema used for the C6 witness. -/
def sampleWrapped : SchemaNode :=
  .wrapper .optional (.wrapper .nullable (.object [("a", .leaf "T")]))

/-- Witness for `flatten_wrapper_transparency` at a concrete
optional-of-nullable object. -/
theorem flatten_wrapper_transparency_witness :
    ("a" : String) ≠ "" ∧
    (flattenSchema sampleWrapped "" = flattenSchema (unwrapSchema sampleWrapped) "" ∧
     flatten (.object [("a", sampleWrapped)])
       = ("a", sampleWrapped) :: flattenSchema (unwrapSchema sampleWrapped) "a" ∧
     flatten (.object [("a", unwrapSchema sampleWrapped)])
       = ("a", unwrapSchema sampleWrapped) :: flattenSchema (unwrapSchema sampleWrapped) "a") :=
  ⟨by decide, flatten_wrapper_transparency sampleWrapped "" "a" (by decide)⟩

/-- The spec scenario schema of C7. -/
def postsSchema : SchemaNode :=
  .object [("name", .leaf "string-name"),
    ("posts", .array (.object [("title", .leaf "string-title")]))]

/-- C7 (confirmed): the posts scenario — the key set is exactly
name, posts, posts[], posts[].title (the root contributes no entry, object
fields join with a dot, the array suffix concatenates with no separator), and
resolving posts[].title returns the title field leaf from the graph. -/
theorem flatten_scenario_posts :
    keysOf (flatten postsSchema) = ["name", "posts", "posts[]", "posts[].title"] ∧
    resolve postsSchema "posts[].title" = some (.leaf "string-title") :=
  ⟨rfl, rfl⟩

/-- The spec scenario schema of C8. -/
def vehicleSchema : SchemaNode :=
  .union [.object [("type", .leaf "literal-car"), ("doors", .leaf "number-doors")],
    .object [("type", .leaf "literal-bike"), ("gears", .leaf "number-gears")]]

/-- C8 (confirmed): the vehicle union scenario — the union node adds no entry
of its own, the shared key `type` resolves to the synthetic union of the two
literals in branch order, and `doors` (unique to branch 0) resolves to its
number schema with no union wrapping. -/
theorem flatten_scenario_vehicles :
    keysOf (flatten vehicleSchema) = ["type", "doors", "gears"] ∧
    resolve vehicleSchema "type"
      = some (.union [.leaf "literal-car", .leaf "literal-bike"]) ∧
    resolve vehicleSchema "doors" = some (.leaf "number-doors") :=
  ⟨rfl, rfl, rfl⟩

/-- The entry an object field contributes: its own path entry followed by its
recursive flattening. -/
def fieldContribution (p : String) (fv : String × SchemaNode) : FlatMap :=
  (toKey p fv.1, fv.2) :: flattenSchema fv.2 (toKey p fv.1)

/-- C9 (corrected): when the per-field contributions have pairwise-disjoint
key sets (and no field path is empty), flattening an object is exactly the
concatenation of the per-field contributions: one direct entry per declared
field at its joined path, mapped to the declared schema, followed by that
field's recursive children.  Without disjointness the colliding entries fold
into a union (see the counterexample). -/
theorem flatten_object_fields_exact (p : String) (fields : List (String × SchemaNode))
    (h0 : ∀ fv ∈ fields, toKey p fv.1 ≠ "")
    (h1 : (fields.map (fieldContribution p)).Pairwise
      fun a b => ∀ k ∈ keysOf a, k ∉ keysOf b) :
    flattenSchema (.object fields) p = (fields.map (fieldContribution p)).flatten := by
  have hcontrib : ∀ fv ∈ fields,
      mergeSchemas [[(toKey p fv.1, fv.2)], flattenSchema fv.2 (toKey p fv.1)]
        = fieldContribution p fv := by
    intro fv hfv
    have hF := uniqKeys_flattenSchema fv.2 (toKey p fv.1)
    have hmem := not_mem_keysOf_flattenSchema_self fv.2 (toKey p fv.1) (h0 fv hfv)
    show mergeInto [(toKey p fv.1, fv.2)] (flattenSchema fv.2 (toKey p fv.1)) = _
    rw [mergeInto_disjoint _ _ hF ?_]
    · rfl
    · intro k hk
      simp only [keysOf_cons, keysOf_nil, List.mem_singleton]
      intro hEq
      exact hmem (hEq ▸ hk)
  have hmap : flattenObjectFields fields p = fields.map (fieldContribution p) := by
    rw [flattenObjectFields_eq_map]
    exact List.map_congr_left hcontrib
  have hu : ∀ m ∈ fields.map (fieldContribution p), uniqKeys m := by
    intro m hm
    obtain ⟨fv, hfv, rfl⟩ := List.mem_map.mp hm
    unfold fieldContribution uniqKeys
    rw [keysOf_cons]
    exact List.nodup_cons.mpr
      ⟨not_mem_keysOf_flattenSchema_self fv.2 _ (h0 fv hfv), uniqKeys_flattenSchema _ _⟩
  have hujoin : uniqKeys ((fields.map (fieldContribution p)).flatten) :=
    uniqKeys_flatten_list _ hu h1
  rw [flattenSchema_object, hmap, mergeSchemas_eq_foldl,
    foldl_mergeInto_of_disjoint _ [] hu h1 (by simp [keysOf_nil])]
  rw [List.nil_append]
  exact mergeInto_nil_left _ hujoin

/-- Fields used for the C9 witness. -/
def simpleFields : List (String × SchemaNode) :=
  [("a", .leaf "leaf-a"), ("b", .object [("c", .leaf "leaf-c")])]

/-- Witness for `flatten_object_fields_exact` at a concrete two-field object. -/
theorem flatten_object_fields_exact_witness :
    (∀ fv ∈ simpleFields, toKey "" fv.1 ≠ "") ∧
    ((simpleFields.map (fieldContribution "")).Pairwise
      fun a b => ∀ k ∈ keysOf a, k ∉ keysOf b) ∧
    flattenSchema (.object simpleFields) ""
      = (simpleFields.map (fieldContribution "")).flatten :=
  ⟨by decide, by decide,
    flatten_object_fields_exact "" simpleFields (by decide) (by decide)⟩

/-- An object whose field named with a dot collides with a nested path. -/
def collidingObject : SchemaNode :=
  .object [("a", .object [("b", .leaf "inner-b")]), ("a.b", .leaf "field-ab")]

/-- C9 counterexample to the claim as stated: the object declares the field
`a.b` with its own leaf schema, but the flattened map stores at path `a.b` a
union folding that leaf with the nested child `b` of field `a` — the direct
entry of a declared field is not always the declared schema. -/
theorem flatten_object_fields_cex :
    lookupKey (flatten collidingObject) "a.b"
      = some (.union [.leaf "inner-b", .leaf "field-ab"]) ∧
    (SchemaNode.union [.leaf "inner-b", .leaf "field-ab"] ≠ .leaf "field-ab") :=
  ⟨rfl, by simp⟩

/-! ### Graph model for cycle behaviour (C2)

The inductive `SchemaNode` can only represent acyclic (tree-shaped) schema
graphs, so the cycle claim is settled over a pointer-style model: nodes live
in a store and reference their children by id, exactly as the zod schema
objects reference each other in memory.  `flattenSchemaG` is the same
algorithm as `flattenSchema`, instrumented with a recursion budget (`fuel`);
a `none` result means the budget was exhausted without the traversal
completing.  The source has no visited-set and no CyclicSchema error, which
this model mirrors: there is no error value, only non-completion. -/

inductive GNode where
  | gobject (fields : List (String × Nat))
  | garray (element : Nat)
  | gtuple (items : List Nat)
  | gunion (options : List Nat)
  | gwrapper (kind : WrapperKind) (inner : Nat)
  | gleaf (tag : String)

abbrev GStore := List (Nat × GNode)

def lookupG : GStore → Nat → Option GNode
  | [], _ => none
  | (i, nd) :: t, j => if i = j then some nd else lookupG t j

/-- A value in a graph-model flattened map: a reference to a graph node, or a
synthetic union allocated by the merger. -/
inductive GVal where
  | ref (id : Nat)
  | synth (options : List GVal)

abbrev GFlatMap := List (String × GVal)

def lookupKeyG : GFlatMap → String → Option GVal
  | [], _ => none
  | (k1, v1) :: t, k => if k1 = k then some v1 else lookupKeyG t k

def setKeyG : GFlatMap → String → GVal → GFlatMap
  | [], k, v => [(k, v)]
  | (k1, v1) :: t, k, v => if k1 = k then (k, v) :: t else (k1, v1) :: setKeyG t k v

/-- The `instanceof ZodUnion` test in the graph model. -/
def isUnionG (store : GStore) : GVal → Bool
  | .ref i =>
    match lookupG store i with
    | some (.gunion _) => true
    | _ => false
  | .synth _ => true

/-- The options of a union value (used when splicing). -/
def unionOptionsG (store : GStore) : GVal → List GVal
  | .ref i =>
    match lookupG store i with
    | some (.gunion options) => options.map GVal.ref
    | _ => []
  | .synth options => options

def newValG (store : GStore) (current : Option GVal) (value : GVal) : GVal :=
  match current with
  | none => value
  | some cur =>
    if isUnionG store cur then .synth (unionOptionsG store cur ++ [value])
    else .synth [cur, value]

def mergeEntryG (store : GStore) (acc : GFlatMap) (kv : String × GVal) : GFlatMap :=
  setKeyG acc kv.1 (newValG store (lookupKeyG acc kv.1) kv.2)

def mergeIntoG (store : GStore) (acc : GFlatMap) (m : GFlatMap) : GFlatMap :=
  m.foldl (mergeEntryG store) acc

def mergeSchemasG (store : GStore) (maps : List GFlatMap) : GFlatMap :=
  maps.foldl (mergeIntoG store) []

/-- Option-valued map over a list, failing when any element fails. -/
def mapMOption (f : α → Option β) : List α → Option (List β)
  | [] => some []
  | a :: t =>
    match f a with
    | none => none
    | some b =>
      match mapMOption f t with
      | none => none
      | some bs => some (b :: bs)

/-- Indexed variant for tuple items. -/
def mapIdxMOption (f : Nat → α → Option β) : Nat → List α → Option (List β)
  | _, [] => some []
  | i, a :: t =>
    match f i a with
    | none => none
    | some b =>
      match mapIdxMOption f (i + 1) t with
      | none => none
      | some bs => some (b :: bs)

/-- The flattener over the pointer graph, with a recursion budget consumed
once per node visit.  Mirrors `flattenSchema` case by case. -/
def flattenSchemaG (store : GStore) : Nat → Nat → String → Option GFlatMap
  | 0, _, _ => none
  | fuel + 1, id, p =>
    match lookupG store id with
    | none => none
    | some (.gwrapper _ inner) => flattenSchemaG store fuel inner p
    | some (.garray element) =>
      (flattenSchemaG store fuel element (p ++ "[]")).map fun m =>
        mergeSchemasG store
          [mergeSchemasG store [[(p ++ "[]", .ref element)], m], [], [], []]
    | some (.gtuple items) =>
      (mapIdxMOption (fun i elId =>
          (flattenSchemaG store fuel elId (p ++ "[" ++ toString i ++ "]")).map fun m =>
            mergeSchemasG store [[(p ++ "[" ++ toString i ++ "]", .ref elId)], m])
        0 items).map fun ms =>
          mergeSchemasG store [[], mergeSchemasG store ms, [], []]
    | some (.gobject fields) =>
      (mapMOption (fun fv =>
          (flattenSchemaG store fuel fv.2 (toKey p fv.1)).map fun m =>
            mergeSchemasG store [[(toKey p fv.1, .ref fv.2)], m])
        fields).map fun ms =>
          mergeSchemasG store [[], [], mergeSchemasG store ms, []]
    | some (.gunion options) =>
      (mapMOption (fun o => flattenSchemaG store fuel o p) options).map fun ms =>
        mergeSchemasG store [[], [], [], mergeSchemasG store ms]
    | some (.gleaf _) => some (mergeSchemasG store [[], [], [], []])

/-- A store whose single node is an array whose element is itself: the
smallest cyclic schema graph. -/
def cyclicStore : GStore := [(0, .garray 0)]

theorem flattenSchemaG_cyclic : ∀ (n : Nat) (p : String),
    flattenSchemaG cyclicStore n 0 p = none := by
  intro n
  induction n with
  | zero => intro p; rfl
  | succ n ih =>
    intro p
    show (flattenSchemaG cyclicStore n 0 (p ++ "[]")).map _ = none
    rw [ih (p ++ "[]")]
    rfl

/-! The store at `id` denotes the schema tree `s` (so the graph reachable
from `id` is acyclic).  `TreeAtList` and `TreeAtFields` relate the id lists
of composite nodes to the corresponding subtree lists. -/

mutual

inductive TreeAt (store : GStore) : Nat → SchemaNode → Prop where
  | leaf (id : Nat) (tag : String) :
      lookupG store id = some (.gleaf tag) → TreeAt store id (.leaf tag)
  | wrapper (id : Nat) (kd : WrapperKind) (innerId : Nat) (inner : SchemaNode) :
      lookupG store id = some (.gwrapper kd innerId) → TreeAt store innerId inner →
      TreeAt store id (.wrapper kd inner)
  | array (id elId : Nat) (element : SchemaNode) :
      lookupG store id = some (.garray elId) → TreeAt store elId element →
      TreeAt store id (.array element)
  | tuple (id : Nat) (itemIds : List Nat) (items : List SchemaNode) :
      lookupG store id = some (.gtuple itemIds) →
      TreeAtList store itemIds items → TreeAt store id (.tuple items)
  | union (id : Nat) (optionIds : List Nat) (options : List SchemaNode) :
      lookupG store id = some (.gunion optionIds) →
      TreeAtList store optionIds options → TreeAt store id (.union options)
  | object (id : Nat) (gfields : List (String × Nat)) (fields : List (String × SchemaNode)) :
      lookupG store id = some (.gobject gfields) →
      TreeAtFields store gfields fields → TreeAt store id (.object fields)

inductive TreeAtList (store : GStore) : List Nat → List SchemaNode → Prop where
  | nil : TreeAtList store [] []
  | cons {id : Nat} {s : SchemaNode} {ids : List Nat} {ss : List SchemaNode} :
      TreeAt store id s → TreeAtList store ids ss →
      TreeAtList store (id :: ids) (s :: ss)

inductive TreeAtFields (store : GStore) :
    List (String × Nat) → List (String × SchemaNode) → Prop where
  | nil : TreeAtFields store [] []
  | cons {key : String} {gid : Nat} {s : SchemaNode} {gl : List (String × Nat)}
      {fl : List (String × SchemaNode)} :
      TreeAt store gid s → TreeAtFields store gl fl →
      TreeAtFields store ((key, gid) :: gl) ((key, s) :: fl)

end

theorem treeAtList_mem {store : GStore} :
    ∀ {ids : List Nat} {ss : List SchemaNode}, TreeAtList store ids ss →
    ∀ id ∈ ids, ∃ s ∈ ss, TreeAt store id s := by
  intro ids
  induction ids with
  | nil => intro ss _ id hid; simp at hid
  | cons a t ih =>
    intro ss h id hid
    cases h with
    | cons hR hRt =>
      rcases List.mem_cons.mp hid with rfl | hid1
      · exact ⟨_, by simp, hR⟩
      · obtain ⟨s, hs, hRs⟩ := ih hRt id hid1
        exact ⟨s, by simp [hs], hRs⟩

theorem treeAtFields_mem {store : GStore} :
    ∀ {gl : List (String × Nat)} {fl : List (String × SchemaNode)},
    TreeAtFields store gl fl →
    ∀ gn ∈ gl, ∃ fv ∈ fl, gn.1 = fv.1 ∧ TreeAt store gn.2 fv.2 := by
  intro gl
  induction gl with
  | nil => intro fl _ gn hgn; simp at hgn
  | cons a t ih =>
    intro fl h gn hgn
    cases h with
    | @cons key gid s gl fl2 hR hRt =>
      rcases List.mem_cons.mp hgn with rfl | hgn1
      · exact ⟨(key, s), by simp, rfl, hR⟩
      · obtain ⟨fv, hfv, h1, h2⟩ := ih hRt gn hgn1
        exact ⟨fv, by simp [hfv], h1, h2⟩

theorem mapMOption_isSome {α β : Type} {f : α → Option β} :
    ∀ {l : List α}, (∀ a ∈ l, (f a).isSome) → (mapMOption f l).isSome := by
  intro l
  induction l with
  | nil => intro _; rfl
  | cons a t ih =>
    intro h
    have ha := h a (by simp)
    have ht := ih fun x hx => h x (by simp [hx])
    rw [mapMOption]
    cases hfa : f a with
    | none => rw [hfa] at ha; simp at ha
    | some b =>
      cases hmt : mapMOption f t with
      | none => rw [hmt] at ht; simp at ht
      | some bs => rfl

theorem mapIdxMOption_isSome {α β : Type} {f : Nat → α → Option β} :
    ∀ {l : List α} (i : Nat), (∀ a ∈ l, ∀ j, (f j a).isSome) →
    (mapIdxMOption f i l).isSome := by
  intro l
  induction l with
  | nil => intro i _; rfl
  | cons a t ih =>
    intro i h
    have ha := h a (by simp) i
    have ht := ih (i + 1) fun x hx => h x (by simp [hx])
    rw [mapIdxMOption]
    cases hfa : f i a with
    | none => rw [hfa] at ha; simp at ha
    | some b =>
      cases hmt : mapIdxMOption f (i + 1) t with
      | none => rw [hmt] at ht; simp at ht
      | some bs => rfl

theorem flattenSchemaG_total_aux : ∀ (n : Nat) (s : SchemaNode), sizeOf s ≤ n →
    ∀ (store : GStore) (id : Nat) (p : String) (fuel : Nat), TreeAt store id s →
    sizeOf s ≤ fuel → (flattenSchemaG store fuel id p).isSome := by
  intro n
  induction n with
  | zero =>
    intro s hs
    exfalso
    cases s <;> simp at hs
  | succ n ih =>
    intro s hs store id p fuel ht hf
    have hpos : 1 ≤ sizeOf s := by cases s <;> (simp; try omega)
    obtain ⟨f, rfl⟩ : ∃ f, fuel = f + 1 := ⟨fuel - 1, by omega⟩
    cases ht with
    | leaf id tag hl =>
      simp [flattenSchemaG, hl]
    | wrapper id kd innerId inner hl hin =>
      have hsz : sizeOf inner ≤ n := by simp at hs; omega
      have hfz : sizeOf inner ≤ f := by simp at hf; omega
      have hrec := ih inner hsz store innerId p f hin hfz
      simpa [flattenSchemaG, hl] using hrec
    | array id elId element hl hel =>
      have hsz : sizeOf element ≤ n := by simp at hs; omega
      have hfz : sizeOf element ≤ f := by simp at hf; omega
      have hrec := ih element hsz store elId (p ++ "[]") f hel hfz
      simpa [flattenSchemaG, hl, Option.isSome_map'] using hrec
    | tuple id itemIds items hl hits =>
      simp only [flattenSchemaG, hl, Option.isSome_map']
      apply mapIdxMOption_isSome
      intro elId hmem j
      obtain ⟨el, helmem, hrel⟩ := treeAtList_mem hits elId hmem
      have hlt := sizeOf_lt_of_mem_items helmem
      have hsz : sizeOf el ≤ n := by simp at hs; omega
      have hfz : sizeOf el ≤ f := by simp at hf; omega
      rw [Option.isSome_map']
      exact ih el hsz store elId _ f hrel hfz
    | union id optionIds options hl hops =>
      simp only [flattenSchemaG, hl, Option.isSome_map']
      apply mapMOption_isSome
      intro oId hmem
      obtain ⟨o, homem, hrel⟩ := treeAtList_mem hops oId hmem
      have hlt := sizeOf_lt_of_mem_items homem
      have hsz : sizeOf o ≤ n := by simp at hs; omega
      have hfz : sizeOf o ≤ f := by simp at hf; omega
      exact ih o hsz store oId p f hrel hfz
    | object id gfields fields hl hfs =>
      simp only [flattenSchemaG, hl, Option.isSome_map']
      apply mapMOption_isSome
      intro gfv hmem
      obtain ⟨fv, hfvmem, hname, hrel⟩ := treeAtFields_mem hfs gfv hmem
      have hlt := sizeOf_snd_lt_of_mem hfvmem
      have hsz : sizeOf fv.2 ≤ n := by simp at hs; omega
      have hfz : sizeOf fv.2 ≤ f := by simp at hf; omega
      rw [Option.isSome_map']
      exact ih fv.2 hsz store gfv.2 _ f hrel hfz

/-- C2 (corrected): the flattener contains no cycle detection and no
CyclicSchema error.  On a cyclic schema graph it recurses without bound —
for every recursion budget the fuel-instrumented flattener exhausts its
budget on the one-node cyclic store without ever completing (and a fortiori
without producing any error value, since none exists in the code).  On every
acyclic schema graph — a store denoting a schema tree — the traversal
completes once the budget reaches the tree size. -/
theorem flatten_cycle_guard (store : GStore) (id : Nat) (s : SchemaNode) (p : String)
    (h : TreeAt store id s) :
    (∀ fuel, sizeOf s ≤ fuel → (flattenSchemaG store fuel id p).isSome) ∧
    (∀ (n : Nat) (q : String), flattenSchemaG cyclicStore n 0 q = none) :=
  ⟨fun fuel hf => flattenSchemaG_total_aux (sizeOf s) s le_rfl store id p fuel h hf,
    flattenSchemaG_cyclic⟩

/-- A two-node acyclic store denoting the schema
`Object(name: String)`, used for the C2 witness. -/
def acyclicStore : GStore := [(0, .gobject [("name", 1)]), (1, .gleaf "string")]

/-- Witness for `flatten_cycle_guard` at the concrete acyclic store. -/
theorem flatten_cycle_guard_witness :
    TreeAt acyclicStore 0 (.object [("name", .leaf "string")]) ∧
    ((∀ fuel, sizeOf (SchemaNode.object [("name", .leaf "string")]) ≤ fuel →
        (flattenSchemaG acyclicStore fuel 0 "").isSome) ∧
      (∀ (n : Nat) (q : String), flattenSchemaG cyclicStore n 0 q = none)) := by
  have htree : TreeAt acyclicStore 0 (.object [("name", .leaf "string")]) :=
    .object 0 [("name", 1)] [("name", .leaf "string")] rfl
      (TreeAtFields.cons (.leaf 1 "string" rfl) TreeAtFields.nil)
  exact ⟨htree, flatten_cycle_guard acyclicStore 0 _ "" htree⟩

/-- C2 counterexample to the claim as stated: on the cyclic one-node graph,
flatten never detects the cycle and never fails with any CyclicSchema value —
it simply never completes, for any recursion budget. -/
theorem flatten_cyclic_cex :
    ¬ ∃ (n : Nat) (m : GFlatMap), flattenSchemaG cyclicStore n 0 "" = some m := by
  rintro ⟨n, m, hm⟩
  rw [flattenSchemaG_cyclic n ""] at hm
  exact Option.noConfusion hm

/-! ### Allocation model for object identity (C5)

Each JS object has an identity; `z.union(...)` inside the merger allocates a
fresh union object on every call, while all other values stored in the
flattened map are the original graph nodes.  `ANode` annotates every node
with its identity, and the allocation-instrumented flattener threads a
counter handing out fresh identities to the synthetic unions, in the order
the source allocates them.  `eraseA` forgets identities, recovering the
structural model. -/

inductive ANode where
  | aobject (id : Nat) (fields : List (String × ANode))
  | aarray (id : Nat) (element : ANode)
  | atuple (id : Nat) (items : List ANode)
  | aunion (id : Nat) (options : List ANode)
  | awrapper (id : Nat) (kind : WrapperKind) (inner : ANode)
  | aleaf (id : Nat) (tag : String)

/-- The identity of a node (its top-level object identity). -/
def nodeId : ANode → Nat
  | .aobject i _ => i
  | .aarray i _ => i
  | .atuple i _ => i
  | .aunion i _ => i
  | .awrapper i _ _ => i
  | .aleaf i _ => i

mutual

def eraseA : ANode → SchemaNode
  | .aobject _ fields => .object (eraseFieldsA fields)
  | .aarray _ element => .array (eraseA element)
  | .atuple _ items => .tuple (eraseListA items)
  | .aunion _ options => .union (eraseListA options)
  | .awrapper _ kd inner => .wrapper kd (eraseA inner)
  | .aleaf _ tag => .leaf tag

def eraseFieldsA : List (String × ANode) → List (String × SchemaNode)
  | [] => []
  | (key, value) :: rest => (key, eraseA value) :: eraseFieldsA rest

def eraseListA : List ANode → List SchemaNode
  | [] => []
  | a :: rest => eraseA a :: eraseListA rest

end

abbrev AFlatMap := List (String × ANode)

def eraseMapA (m : AFlatMap) : FlatMap := m.map fun kv => (kv.1, eraseA kv.2)

def lookupKeyA : AFlatMap → String → Option ANode
  | [], _ => none
  | (k1, v1) :: t, k => if k1 = k then some v1 else lookupKeyA t k

def setKeyA : AFlatMap → String → ANode → AFlatMap
  | [], k, v => [(k, v)]
  | (k1, v1) :: t, k, v => if k1 = k then (k, v) :: t else (k1, v1) :: setKeyA t k v

/-- The assigned merge value, threading the allocation counter: a `z.union`
call consumes one fresh identity. -/
def newValA : Option ANode → ANode → Nat → ANode × Nat
  | none, value, c => (value, c)
  | some (.aunion _ options), value, c => (.aunion c (options ++ [value]), c + 1)
  | some current, value, c => (.aunion c [current, value], c + 1)

def mergeEntryA (acc : AFlatMap) (kv : String × ANode) (c : Nat) : AFlatMap × Nat :=
  let r := newValA (lookupKeyA acc kv.1) kv.2 c
  (setKeyA acc kv.1 r.1, r.2)

def mergeIntoA : AFlatMap → AFlatMap → Nat → AFlatMap × Nat
  | acc, [], c => (acc, c)
  | acc, kv :: t, c =>
    let r := mergeEntryA acc kv c
    mergeIntoA r.1 t r.2

def mergeSchemasAGo : AFlatMap → List AFlatMap → Nat → AFlatMap × Nat
  | acc, [], c => (acc, c)
  | acc, m :: ms, c =>
    let r := mergeIntoA acc m c
    mergeSchemasAGo r.1 ms r.2

def mergeSchemasA (maps : List AFlatMap) (c : Nat) : AFlatMap × Nat :=
  mergeSchemasAGo [] maps c

mutual

def flattenSchemaA : ANode → String → Nat → AFlatMap × Nat
  | .awrapper _ _ inner, p, c => flattenSchemaA inner p c
  | .aarray _ element, p, c =>
    let r := flattenSchemaA element (p ++ "[]") c
    let r2 := mergeSchemasA [[(p ++ "[]", element)], r.1] r.2
    mergeSchemasA [r2.1, [], [], []] r2.2
  | .atuple _ items, p, c =>
    let r := flattenTupleItemsA items p 0 c
    let r2 := mergeSchemasA r.1 r.2
    mergeSchemasA [[], r2.1, [], []] r2.2
  | .aobject _ fields, p, c =>
    let r := flattenObjectFieldsA fields p c
    let r2 := mergeSchemasA r.1 r.2
    mergeSchemasA [[], [], r2.1, []] r2.2
  | .aunion _ options, p, c =>
    let r := flattenUnionOptionsA options p c
    let r2 := mergeSchemasA r.1 r.2
    mergeSchemasA [[], [], [], r2.1] r2.2
  | .aleaf _ _, _, c => mergeSchemasA [[], [], [], []] c

def flattenTupleItemsA : List ANode → String → Nat → Nat → List AFlatMap × Nat
  | [], _, _, c => ([], c)
  | element :: rest, p, index, c =>
    let r := flattenSchemaA element (p ++ "[" ++ toString index ++ "]") c
    let r2 := mergeSchemasA [[(p ++ "[" ++ toString index ++ "]", element)], r.1] r.2
    let r3 := flattenTupleItemsA rest p (index + 1) r2.2
    (r2.1 :: r3.1, r3.2)

def flattenObjectFieldsA : List (String × ANode) → String → Nat → List AFlatMap × Nat
  | [], _, c => ([], c)
  | (key, value) :: rest, p, c =>
    let r := flattenSchemaA value (toKey p key) c
    let r2 := mergeSchemasA [[(toKey p key, value)], r.1] r.2
    let r3 := flattenObjectFieldsA rest p r2.2
    (r2.1 :: r3.1, r3.2)

def flattenUnionOptionsA : List ANode → String → Nat → List AFlatMap × Nat
  | [], _, c => ([], c)
  | option :: rest, p, c =>
    let r := flattenSchemaA option p c
    let r2 := flattenUnionOptionsA rest p r.2
    (r.1 :: r2.1, r2.2)

end

def flattenA (schema : ANode) (c : Nat) : AFlatMap × Nat :=
  flattenSchemaA schema "" c

/-- The allocation-model resolve: runs its own flatten (continuing the
allocation stream at `c`) and looks the key up, exactly as `resolve` calls
`flatten` afresh. -/
def resolveA (schema : ANode) (key : String) (c : Nat) : Option ANode × Nat :=
  let r := flattenA schema c
  (lookupKeyA r.1 key, r.2)

/-! Erasing identities commutes with every operation, so the allocation
model refines the structural model: allocation only decides identities,
never structure. -/

theorem eraseListA_eq_map : ∀ (l : List ANode), eraseListA l = l.map eraseA
  | [] => rfl
  | a :: t => by rw [eraseListA, List.map_cons, eraseListA_eq_map t]

theorem eraseFieldsA_eq_map : ∀ (l : List (String × ANode)),
    eraseFieldsA l = l.map fun kv => (kv.1, eraseA kv.2)
  | [] => rfl
  | (k1, v1) :: t => by rw [eraseFieldsA, List.map_cons, eraseFieldsA_eq_map t]

theorem eraseMapA_nil : eraseMapA [] = [] := rfl

theorem eraseMapA_cons (kv : String × ANode) (t : AFlatMap) :
    eraseMapA (kv :: t) = (kv.1, eraseA kv.2) :: eraseMapA t := rfl

theorem lookupKey_eraseMapA : ∀ (m : AFlatMap) (k : String),
    lookupKey (eraseMapA m) k = Option.map eraseA (lookupKeyA m k) := by
  intro m
  induction m with
  | nil => intro k; rfl
  | cons kv t ih =>
    intro k
    obtain ⟨k1, v1⟩ := kv
    by_cases h : k1 = k
    · simp [eraseMapA_cons, lookupKey, lookupKeyA, h]
    · show (if k1 = k then some (eraseA v1) else lookupKey (eraseMapA t) k)
        = Option.map eraseA (if k1 = k then some v1 else lookupKeyA t k)
      rw [if_neg h, if_neg h, ih]

theorem setKey_eraseMapA : ∀ (m : AFlatMap) (k : String) (v : ANode),
    eraseMapA (setKeyA m k v) = setKey (eraseMapA m) k (eraseA v) := by
  intro m
  induction m with
  | nil => intro k v; rfl
  | cons kv t ih =>
    intro k v
    obtain ⟨k1, v1⟩ := kv
    by_cases h : k1 = k
    · show eraseMapA (if k1 = k then (k, v) :: t else (k1, v1) :: setKeyA t k v)
        = if k1 = k then (k, eraseA v) :: eraseMapA t
          else (k1, eraseA v1) :: setKey (eraseMapA t) k (eraseA v)
      rw [if_pos h, if_pos h, eraseMapA_cons]
    · show eraseMapA (if k1 = k then (k, v) :: t else (k1, v1) :: setKeyA t k v)
        = if k1 = k then (k, eraseA v) :: eraseMapA t
          else (k1, eraseA v1) :: setKey (eraseMapA t) k (eraseA v)
      rw [if_neg h, if_neg h, eraseMapA_cons, ih]

theorem newValA_erase (current : Option ANode) (value : ANode) (c : Nat) :
    eraseA (newValA current value c).1
      = newVal (Option.map eraseA current) (eraseA value) := by
  cases current with
  | none => rfl
  | some cur =>
    cases cur with
    | aunion i options =>
      show eraseA (.aunion c (options ++ [value])) = _
      rw [eraseA, eraseListA_eq_map, List.map_append]
      show _ = .union (eraseListA options ++ [eraseA value])
      rw [eraseListA_eq_map]
      rfl
    | aobject i fields => rfl
    | aarray i element => rfl
    | atuple i items => rfl
    | awrapper i kd inner => rfl
    | aleaf i tag => rfl

theorem mergeEntryA_erase (acc : AFlatMap) (kv : String × ANode) (c : Nat) :
    eraseMapA (mergeEntryA acc kv c).1
      = mergeEntry (eraseMapA acc) (kv.1, eraseA kv.2) := by
  show eraseMapA (setKeyA acc kv.1 (newValA (lookupKeyA acc kv.1) kv.2 c).1) = _
  rw [setKey_eraseMapA, newValA_erase, ← lookupKey_eraseMapA]
  rfl

theorem mergeIntoA_erase : ∀ (m : AFlatMap) (acc : AFlatMap) (c : Nat),
    eraseMapA (mergeIntoA acc m c).1 = mergeInto (eraseMapA acc) (eraseMapA m) := by
  intro m
  induction m with
  | nil => intro acc c; rfl
  | cons kv t ih =>
    intro acc c
    show eraseMapA (mergeIntoA (mergeEntryA acc kv c).1 t (mergeEntryA acc kv c).2).1 = _
    rw [ih, mergeEntryA_erase, eraseMapA_cons, mergeInto_cons]

theorem mergeSchemasAGo_erase : ∀ (maps : List AFlatMap) (acc : AFlatMap) (c : Nat),
    eraseMapA (mergeSchemasAGo acc maps c).1
      = (maps.map eraseMapA).foldl mergeInto (eraseMapA acc) := by
  intro maps
  induction maps with
  | nil => intro acc c; rfl
  | cons m ms ih =>
    intro acc c
    show eraseMapA (mergeSchemasAGo (mergeIntoA acc m c).1 ms (mergeIntoA acc m c).2).1 = _
    rw [ih, mergeIntoA_erase, List.map_cons, List.foldl_cons]

theorem mergeSchemasA_erase (maps : List AFlatMap) (c : Nat) :
    eraseMapA (mergeSchemasA maps c).1 = mergeSchemas (maps.map eraseMapA) := by
  show eraseMapA (mergeSchemasAGo [] maps c).1 = _
  rw [mergeSchemasAGo_erase]
  rfl

/-! Definitional case equations of `flattenSchema` in `mergeSchemas` form,
used to align the two models. -/

theorem flattenSchema_array_merge (e : SchemaNode) (p : String) :
    flattenSchema (.array e) p = mergeSchemas
      [mergeSchemas [[(p ++ "[]", e)], flattenSchema e (p ++ "[]")], [], [], []] := rfl

theorem flattenSchema_tuple_merge (items : List SchemaNode) (p : String) :
    flattenSchema (.tuple items) p
      = mergeSchemas [[], mergeSchemas (flattenTupleItems items p 0), [], []] := rfl

theorem flattenSchema_object_merge (fields : List (String × SchemaNode)) (p : String) :
    flattenSchema (.object fields) p
      = mergeSchemas [[], [], mergeSchemas (flattenObjectFields fields p), []] := rfl

theorem flattenSchema_union_merge (options : List SchemaNode) (p : String) :
    flattenSchema (.union options) p
      = mergeSchemas [[], [], [], mergeSchemas (flattenUnionOptions options p)] := rfl

theorem sizeOfA_snd_lt_of_mem {fields : List (String × ANode)}
    {fv : String × ANode} (h : fv ∈ fields) : sizeOf fv.2 < sizeOf fields := by
  induction fields with
  | nil => simp at h
  | cons hd t ih =>
    rcases List.mem_cons.mp h with h1 | h1
    · subst h1
      obtain ⟨a, b⟩ := fv
      simp
      omega
    · have := ih h1
      simp
      omega

theorem sizeOfA_lt_of_mem_items {items : List ANode} {el : ANode}
    (h : el ∈ items) : sizeOf el < sizeOf items := by
  induction items with
  | nil => simp at h
  | cons hd t ih =>
    rcases List.mem_cons.mp h with h1 | h1
    · subst h1
      simp
      omega
    · have := ih h1
      simp
      omega

theorem flattenSchemaA_erase_aux : ∀ (n : Nat) (a : ANode), sizeOf a ≤ n →
    ∀ (p : String) (c : Nat),
    eraseMapA (flattenSchemaA a p c).1 = flattenSchema (eraseA a) p := by
  intro n
  induction n with
  | zero =>
    intro a ha
    exfalso
    cases a <;> simp at ha
  | succ n ih =>
    intro a ha p c
    cases a with
    | awrapper i kd inner =>
      have hsz : sizeOf inner ≤ n := by simp at ha; omega
      show eraseMapA (flattenSchemaA inner p c).1 = flattenSchema (.wrapper kd (eraseA inner)) p
      rw [flattenSchema_wrapper, ih inner hsz p c]
    | aleaf i tag => rfl
    | aarray i element =>
      have hsz : sizeOf element ≤ n := by simp at ha; omega
      show eraseMapA (mergeSchemasA
          [(mergeSchemasA [[(p ++ "[]", element)],
              (flattenSchemaA element (p ++ "[]") c).1]
            (flattenSchemaA element (p ++ "[]") c).2).1, [], [], []]
          (mergeSchemasA [[(p ++ "[]", element)],
              (flattenSchemaA element (p ++ "[]") c).1]
            (flattenSchemaA element (p ++ "[]") c).2).2).1
        = flattenSchema (.array (eraseA element)) p
      rw [flattenSchema_array_merge, mergeSchemasA_erase]
      simp only [List.map_cons, List.map_nil, eraseMapA_nil]
      rw [mergeSchemasA_erase]
      simp only [List.map_cons, List.map_nil, eraseMapA_cons, eraseMapA_nil]
      rw [ih element hsz (p ++ "[]") c]
    | atuple i items =>
      have hlist : ∀ (items2 : List ANode), (∀ el ∈ items2, sizeOf el ≤ n) →
          ∀ (j : Nat) (c2 : Nat),
          List.map eraseMapA (flattenTupleItemsA items2 p j c2).1
            = flattenTupleItems (eraseListA items2) p j := by
        intro items2
        induction items2 with
        | nil => intro _ j c2; rfl
        | cons el rest ihl =>
          intro hb j c2
          show List.map eraseMapA
              ((mergeSchemasA [[(p ++ "[" ++ toString j ++ "]", el)],
                  (flattenSchemaA el (p ++ "[" ++ toString j ++ "]") c2).1]
                (flattenSchemaA el (p ++ "[" ++ toString j ++ "]") c2).2).1
                :: (flattenTupleItemsA rest p (j + 1) _).1)
            = _
          rw [List.map_cons, mergeSchemasA_erase, List.map_cons, List.map_cons,
            List.map_nil, eraseMapA_cons, eraseMapA_nil,
            ih el (hb el (by simp)) (p ++ "[" ++ toString j ++ "]") c2,
            ihl (fun x hx => hb x (by simp [hx])) (j + 1) _]
          rfl
      have hb : ∀ el ∈ items, sizeOf el ≤ n := by
        intro el hel
        have := sizeOfA_lt_of_mem_items hel
        simp at ha
        omega
      show eraseMapA (mergeSchemasA [[],
          (mergeSchemasA (flattenTupleItemsA items p 0 c).1
            (flattenTupleItemsA items p 0 c).2).1, [], []]
          (mergeSchemasA (flattenTupleItemsA items p 0 c).1
            (flattenTupleItemsA items p 0 c).2).2).1
        = flattenSchema (.tuple (eraseListA items)) p
      rw [flattenSchema_tuple_merge, mergeSchemasA_erase]
      simp only [List.map_cons, List.map_nil, eraseMapA_nil]
      rw [mergeSchemasA_erase, hlist items hb 0 c]
    | aobject i fields =>
      have hlist : ∀ (fields2 : List (String × ANode)),
          (∀ fv ∈ fields2, sizeOf fv.2 ≤ n) → ∀ (c2 : Nat),
          List.map eraseMapA (flattenObjectFieldsA fields2 p c2).1
            = flattenObjectFields (eraseFieldsA fields2) p := by
        intro fields2
        induction fields2 with
        | nil => intro _ c2; rfl
        | cons fv rest ihl =>
          intro hb c2
          obtain ⟨key, value⟩ := fv
          show List.map eraseMapA
              ((mergeSchemasA [[(toKey p key, value)],
                  (flattenSchemaA value (toKey p key) c2).1]
                (flattenSchemaA value (toKey p key) c2).2).1
                :: (flattenObjectFieldsA rest p _).1)
            = _
          rw [List.map_cons, mergeSchemasA_erase, List.map_cons, List.map_cons,
            List.map_nil, eraseMapA_cons, eraseMapA_nil,
            ih value (hb (key, value) (by simp)) (toKey p key) c2,
            ihl (fun x hx => hb x (by simp [hx])) _]
          rfl
      have hb : ∀ fv ∈ fields, sizeOf fv.2 ≤ n := by
        intro fv hfv
        have := sizeOfA_snd_lt_of_mem hfv
        simp at ha
        omega
      show eraseMapA (mergeSchemasA [[], [],
          (mergeSchemasA (flattenObjectFieldsA fields p c).1
            (flattenObjectFieldsA fields p c).2).1, []]
          (mergeSchemasA (flattenObjectFieldsA fields p c).1
            (flattenObjectFieldsA fields p c).2).2).1
        = flattenSchema (.object (eraseFieldsA fields)) p
      rw [flattenSchema_object_merge, mergeSchemasA_erase]
      simp only [List.map_cons, List.map_nil, eraseMapA_nil]
      rw [mergeSchemasA_erase, hlist fields hb c]
    | aunion i options =>
      have hlist : ∀ (options2 : List ANode), (∀ o ∈ options2, sizeOf o ≤ n) →
          ∀ (c2 : Nat),
          List.map eraseMapA (flattenUnionOptionsA options2 p c2).1
            = flattenUnionOptions (eraseListA options2) p := by
        intro options2
        induction options2 with
        | nil => intro _ c2; rfl
        | cons o rest ihl =>
          intro hb c2
          show List.map eraseMapA
              ((flattenSchemaA o p c2).1 :: (flattenUnionOptionsA rest p _).1) = _
          rw [List.map_cons, ih o (hb o (by simp)) p c2,
            ihl (fun x hx => hb x (by simp [hx])) _]
          rfl
      have hb : ∀ o ∈ options, sizeOf o ≤ n := by
        intro o ho
        have := sizeOfA_lt_of_mem_items ho
        simp at ha
        omega
      show eraseMapA (mergeSchemasA [[], [], [],
          (mergeSchemasA (flattenUnionOptionsA options p c).1
            (flattenUnionOptionsA options p c).2).1]
          (mergeSchemasA (flattenUnionOptionsA options p c).1
            (flattenUnionOptionsA options p c).2).2).1
        = flattenSchema (.union (eraseListA options)) p
      rw [flattenSchema_union_merge, mergeSchemasA_erase]
      simp only [List.map_cons, List.map_nil, eraseMapA_nil]
      rw [mergeSchemasA_erase, hlist options hb c]

theorem flattenSchemaA_erase (a : ANode) (p : String) (c : Nat) :
    eraseMapA (flattenSchemaA a p c).1 = flattenSchema (eraseA a) p :=
  flattenSchemaA_erase_aux (sizeOf a) a le_rfl p c

/-- C5 (corrected): resolve and flatten agree structurally for every key —
for any allocation counters, the value resolve returns erases to exactly the
value flatten stores (so separate calls return structurally equal schemas),
but identity is not preserved for synthetic unions: each flatten call
allocates its unions afresh (see the counterexample). -/
theorem resolve_flatten_structural_roundtrip (a : ANode) (k : String) (c1 c2 : Nat) :
    Option.map eraseA (resolveA a k c1).1 = resolve (eraseA a) k ∧
    Option.map eraseA (lookupKeyA (flattenA a c2).1 k)
      = Option.map eraseA (resolveA a k c1).1 := by
  have h1 : ∀ c, Option.map eraseA (lookupKeyA (flattenA a c).1 k)
      = resolve (eraseA a) k := by
    intro c
    show Option.map eraseA (lookupKeyA (flattenSchemaA a "" c).1 k)
      = lookupKey (flatten (eraseA a)) k
    rw [← lookupKey_eraseMapA, flattenSchemaA_erase]
    rfl
  exact ⟨h1 c1, (h1 c2).trans (h1 c1).symm⟩

/-- The C8 vehicle scenario with node identities (graph ids 1..7; allocation
counter for the first flatten call starts at 100). -/
def vehicleA : ANode :=
  .aunion 1
    [.aobject 2 [("type", .aleaf 3 "literal-car"), ("doors", .aleaf 4 "number-doors")],
     .aobject 5 [("type", .aleaf 6 "literal-bike"), ("gears", .aleaf 7 "number-gears")]]

/-- C5 counterexample to the claim as stated: the synthetic union stored at
key `type` by the first flatten call has identity 100, while the resolve call
(running its own flatten, continuing the allocation stream) returns a union
with identity 101 — a structurally equal but not identical object.  Resolve
does not return the identical schema object for synthetic-union keys. -/
theorem resolve_flatten_identity_cex :
    Option.map nodeId (lookupKeyA (flattenA vehicleA 100).1 "type") = some 100 ∧
    (flattenA vehicleA 100).2 = 101 ∧
    Option.map nodeId (resolveA vehicleA "type" ((flattenA vehicleA 100).2)).1 = some 101 ∧
    (100 : Nat) ≠ 101 ∧
    Option.map eraseA (resolveA vehicleA "type" ((flattenA vehicleA 100).2)).1
      = Option.map eraseA (lookupKeyA (flattenA vehicleA 100).1 "type") :=
  ⟨rfl, rfl, rfl, by decide, rfl⟩

example : flatten (.object [("name", .leaf "string-name")]) = [("name", .leaf "string-name")] := rfl

example : flattenSchemaG acyclicStore 5 0 "" = some [("name", .ref 1)] := rfl

example : (flattenA (.aobject 1 [("a", .aleaf 2 "x")]) 10).1 = [("a", .aleaf 2 "x")] := rfl

example : flatten (.object [("name", .leaf "str"), ("posts", .array (.object [("title", .leaf "t")]))])
    = [("name", .leaf "str"), ("posts", .array (.object [("title", .leaf "t")])),
       ("posts[]", .object [("title", .leaf "t")]), ("posts[].title", .leaf "t")] := rfl

end ZodResolve
